import Mathlib

/-!
Verification of the CLTune search-and-tuning engine design.

The repository sources available are `src/src/searcher.cc` (the `Searcher`
base class) and `src/samples/gemm.cc` (a sample declaring parameters and
constraints).  The remaining components named by the design document —
parameter space, constraint engine, configuration generator, the four
search strategies and the tuning pipeline — are not among the sources, so
they are modelled here from the design document itself; each such
definition carries a doc comment starting `Modelled from the spec:`.
Machine integers (`size_t` parameter values) are modelled as `Nat`;
measured times (`double`) as `Rat`, since no claim depends on
floating-point rounding.
-/

namespace CLTune


/-- Modelled from the spec: a Configuration is "a mapping from parameter
name to one concrete value" (§3); modelled as an association list in
declaration order. -/
abbrev Config := List (String × Nat)

/-- Modelled from the spec: look up a parameter's value in a
configuration (missing names default to 0; a Configuration covers every
declared parameter, §3). -/
def lookupVal (cfg : Config) (name : String) : Nat :=
  (List.lookup name cfg).getD 0

/-- Modelled from the spec: the top-level comparison operators of a
constraint, "equals, multiple-of" (§3). -/
inductive ConstraintOp
  | equals
  | multipleOf
deriving DecidableEq, Repr

/-- Modelled from the spec: the chain operators combining further
operands, "multiplied-by, divided-by, composed left-to-right" (§3). -/
inductive ChainOp
  | multipliedBy
  | dividedBy
deriving DecidableEq, Repr

/-- Modelled from the spec: a Constraint is "a predicate over one or more
parameter names, expressed as a small arithmetic expression tree"
(§3): a left-hand parameter, a comparison operator, and a right-hand
operand chain composed left-to-right, as in the `AddConstraint` calls of
`samples/gemm.cc`. -/
structure Constraint where
  lhs : String
  op : ConstraintOp
  rhs : String
  chain : List (ChainOp × String)
deriving DecidableEq, Repr

/-- Modelled from the spec: apply one chain operator to an accumulated
value and the next operand's value (integer arithmetic). -/
def applyChainOp (cfg : Config) (acc : Nat) : ChainOp × String → Nat
  | (ChainOp.multipliedBy, p) => acc * lookupVal cfg p
  | (ChainOp.dividedBy, p) => acc / lookupVal cfg p

/-- Modelled from the spec: the value of a constraint's right-hand operand
chain, folded left-to-right from the first right-hand parameter (§3). -/
def chainValue (cfg : Config) (c : Constraint) : Nat :=
  c.chain.foldl (applyChainOp cfg) (lookupVal cfg c.rhs)

/-- Modelled from the spec: evaluate one constraint against a concrete
assignment ("purely functional evaluation", §4.1): `equals` compares the
two sides, `multipleOf` checks the left side modulo the chain value. -/
def Constraint.eval (c : Constraint) (cfg : Config) : Bool :=
  match c.op with
  | ConstraintOp.equals => lookupVal cfg c.lhs == chainValue cfg c
  | ConstraintOp.multipleOf => lookupVal cfg c.lhs % chainValue cfg c == 0

/-- Modelled from the spec: `evaluate(configuration) -> bool` "evaluates
all constraints conjunctively; short-circuits on first failing
constraint" (§4.1). -/
def evalAll (cs : List Constraint) (cfg : Config) : Bool :=
  cs.all (fun c => c.eval cfg)

/-- Modelled from the spec: a Parameter Space "holds named parameters and
their candidate-value sets" (§2, §3); an ordered list of (name, ordered
candidate values) in declaration order. -/
abbrev ParamSpace := List (String × List Nat)

/-- Modelled from the spec: "enumerate the Cartesian product of parameter
domains in declaration order" (§4.2); the first-declared parameter
varies slowest. -/
def cartesian : ParamSpace → List Config
  | [] => [[]]
  | (n, vs) :: rest =>
      vs.flatMap (fun v => (cartesian rest).map (fun c => (n, v) :: c))

/-- Modelled from the spec: the Configuration Generator "produces the set
... of assignments satisfying all constraints" by enumerating the
Cartesian product and applying the Constraint Engine to "skip invalid
ones" (§2, §4.2). -/
def generate (ps : ParamSpace) (cs : List Constraint) : List Config :=
  (cartesian ps).filter (evalAll cs)

/-- The parameter space of the spec's first end-to-end scenario:
A ∈ \x7b2,4,8\x7d, B ∈ \x7b2,3\x7d (§8). -/
def spaceAB : ParamSpace := [("A", [2, 4, 8]), ("B", [2, 3])]

/-- The constraint of the spec's first end-to-end scenario:
"A multiple-of B" (§8). -/
def constraintAB : Constraint := ⟨"A", ConstraintOp.multipleOf, "B", []⟩

/-- Modelled from the spec: the status of an Execution Result,
"status ∈ \x7bValid, CompileFailed, LaunchFailed, CorrectnessFailed\x7d" (§3). -/
inductive Status
  | valid
  | compileFailed
  | launchFailed
  | correctnessFailed
deriving DecidableEq, Repr

/-- Modelled from the spec: an Execution Result, "(Configuration, elapsed
time in milliseconds, status)" (§3); the elapsed `double` is modelled
as `Rat`. -/
structure ExecResult where
  config : Config
  elapsed_ms : Rat
  status : Status
deriving DecidableEq, Repr

/-- The constraint declared at `samples/gemm.cc:95-96`:
"KWG multiple-of MDIMC multiplied-by NDIMC divided-by MDIMA". -/
def gemmConstraint : Constraint :=
  ⟨"KWG", ConstraintOp.multipleOf, "MDIMC",
    [(ChainOp.multipliedBy, "NDIMC"), (ChainOp.dividedBy, "MDIMA")]⟩

/-- Modelled from the spec: the state of the base searcher shared by all
strategies — the list of configurations handed over by the generator and
the running index `i` (`src/src/searcher.cc:36-40` shows the base class
fields; Full Search itself, §4.3, is not among the sources).  Full Search
"deterministically proposes every valid configuration from the Generator
in enumeration order exactly once; terminates when the generator is
exhausted". -/
structure FullSearch where
  configurations : List Config
  i : Nat
deriving Repr

/-- Modelled from the spec: `initialize(configuration_generator)` for Full
Search stores the generator's sequence and starts at index 0 (§4.3). -/
def FullSearch.init (g : List Config) : FullSearch := ⟨g, 0⟩

/-- Modelled from the spec: Full Search `has_next()` — true while the
generator sequence is not exhausted (§4.3). -/
def FullSearch.hasNext (s : FullSearch) : Bool :=
  s.i < s.configurations.length

/-- Modelled from the spec: Full Search `next()` proposes the next
configuration in enumeration order and advances the index (§4.3). -/
def FullSearch.next (s : FullSearch) : Option Config × FullSearch :=
  (s.configurations[s.i]?, { s with i := s.i + 1 })

/-- Modelled from the spec: Full Search `record` "is a no-op
(non-adaptive)" (§4.3). -/
def FullSearch.recordResult (s : FullSearch) (_ : ExecResult) : FullSearch := s

/-- Modelled from the spec: the sequence of configurations Full Search
proposes, pulling while `has_next()` holds, bounded by fuel (§4.3). -/
def FullSearch.proposalsAux : Nat → FullSearch → List Config
  | 0, _ => []
  | fuel + 1, s =>
      if s.hasNext then
        match s.next with
        | (some cfg, s') => cfg :: FullSearch.proposalsAux fuel s'
        | (none, _) => []
      else []

/-- Modelled from the spec: Random Search state (§4.3) — the valid
configurations (for "uniformly sampled valid configuration" draws), the
seen-set "keyed on the configuration's value mapping", the remaining
draw budget, the bounded retry count of rejection sampling (§4.2), a
stream of pseudo-random numbers standing for the RNG, and the
`SpaceExhausted` latch (§7). -/
structure RandomSearch where
  validConfigs : List Config
  seen : List Config
  drawsLeft : Nat
  maxRetries : Nat
  rng : List Nat
  exhausted : Bool
deriving Repr

/-- Modelled from the spec: rejection sampling over the valid subspace —
draw an index from the random stream, reject configurations already
seen, retry up to the bounded attempt count, otherwise fail
(`SpaceExhausted`, §4.2, §7). -/
def sampleUnseen (validConfigs seen : List Config) :
    List Nat → Nat → Option (Config × List Nat)
  | _, 0 => none
  | [], _ => none
  | r :: rest, tries + 1 =>
      match validConfigs[r % validConfigs.length]? with
      | none => none
      | some cfg =>
          if cfg ∈ seen then sampleUnseen validConfigs seen rest tries
          else some (cfg, rest)

/-- Modelled from the spec: Random Search `has_next()` — true until "the
draw count is reached or the valid space is exhausted, whichever first"
(§4.3). -/
def RandomSearch.hasNext (s : RandomSearch) : Bool :=
  0 < s.drawsLeft && !s.exhausted

/-- Modelled from the spec: Random Search `next()` — a uniformly sampled
valid configuration "without replacement within a single run (tracked by
a seen-set)"; a failed bounded sampling marks the space exhausted
(§4.3, §7). -/
def RandomSearch.next (s : RandomSearch) : Option Config × RandomSearch :=
  match sampleUnseen s.validConfigs s.seen s.rng s.maxRetries with
  | some (cfg, rng') =>
      (some cfg,
        { s with seen := cfg :: s.seen, drawsLeft := s.drawsLeft - 1, rng := rng' })
  | none => (none, { s with exhausted := true })

/-- Modelled from the spec: Random Search `record` "is a no-op" (§4.3). -/
def RandomSearch.recordResult (s : RandomSearch) (_ : ExecResult) : RandomSearch := s

/-- Modelled from the spec: a full Random Search run — pull proposals
while `has_next()`, bounded by fuel; returns the proposals and the final
state (§4.3). -/
def RandomSearch.runAux : Nat → RandomSearch → List Config × RandomSearch
  | 0, s => ([], s)
  | fuel + 1, s =>
      if s.hasNext then
        match s.next with
        | (some cfg, s') =>
            let r := RandomSearch.runAux fuel s'
            (cfg :: r.1, r.2)
        | (none, s') => ([], s')
      else ([], s)

/-- Modelled from the spec: Simulated Annealing state (§4.3) — current
configuration and its measured time, a temperature with its fixed
cooling factor (< 1) and floor threshold, the iteration count and
budget, the space and constraints for perturbation re-validation, the
valid configurations for the fresh-draw fallback, a pseudo-random
stream, the bounded perturbation attempt count, and a stream of booleans
standing for the probabilistic acceptance draws (the real code compares
a uniform draw against exp(-(new-current)/temperature); floating-point
exp is modelled by the oracle stream). -/
structure Annealing where
  current : Config
  currentTime : Option Rat
  temperature : Rat
  cooling : Rat
  floor : Rat
  iter : Nat
  budget : Nat
  space : ParamSpace
  constraints : List Constraint
  validConfigs : List Config
  maxRetries : Nat
  rng : List Nat
  acceptOracle : List Bool
deriving Repr

/-- Modelled from the spec: perturb "one randomly chosen parameter of the
current configuration to a different value from its domain" (§4.3); the
two random numbers choose the parameter and its new value. -/
def perturbOnce (space : ParamSpace) (cfg : Config) (r1 r2 : Nat) : Config :=
  match space[r1 % space.length]? with
  | none => cfg
  | some (n, vs) =>
      match vs[r2 % vs.length]? with
      | none => cfg
      | some v => cfg.map (fun p => if p.1 = n then (n, v) else p)

/-- Modelled from the spec: "re-validating against constraints
(reject-and-retry on invalid perturbation up to a bounded attempt
count)" (§4.3). -/
def perturbValid (space : ParamSpace) (cs : List Constraint) (cfg : Config) :
    List Nat → Nat → Option (Config × List Nat)
  | _, 0 => none
  | [], _ => none
  | [_], _ => none
  | r1 :: r2 :: rest, tries + 1 =>
      let c := perturbOnce space cfg r1 r2
      if evalAll cs c && c ≠ cfg then some (c, rest)
      else perturbValid space cs cfg rest tries

/-- Modelled from the spec: Simulated Annealing `has_next()` — true until
"a configured number of iterations or when temperature falls below a
floor threshold" (§4.3). -/
def Annealing.hasNext (s : Annealing) : Bool :=
  s.iter < s.budget && s.floor ≤ s.temperature

/-- Modelled from the spec: Simulated Annealing `next()` — the
temperature "decays geometrically each iteration by a fixed cooling
factor" and the proposal is a bounded-retry perturbation of the current
configuration, "otherwise fall back to a fresh random valid draw"
(§4.3). -/
def Annealing.next (s : Annealing) : Option Config × Annealing :=
  let s' := { s with temperature := s.cooling * s.temperature, iter := s.iter + 1 }
  match perturbValid s.space s.constraints s.current s.rng s.maxRetries with
  | some (cfg, rng') => (some cfg, { s' with rng := rng' })
  | none =>
      match sampleUnseen s.validConfigs [] s.rng s.maxRetries with
      | some (cfg, rng') => (some cfg, { s' with rng := rng' })
      | none => (none, s')

/-- Modelled from the spec: Simulated Annealing `record` — accept the
proposed configuration "unconditionally if its measured time improves on
the current best; otherwise ... probabilistically" (the probabilistic
draw is the next boolean of the acceptance oracle), "else keeps the old
current configuration" (§4.3). -/
def Annealing.recordResult (s : Annealing) (r : ExecResult) : Annealing :=
  if r.status = Status.valid then
    match s.currentTime with
    | none => { s with current := r.config, currentTime := some r.elapsed_ms }
    | some t =>
        if r.elapsed_ms < t then
          { s with current := r.config, currentTime := some r.elapsed_ms }
        else
          match s.acceptOracle with
          | b :: rest =>
              if b then
                { s with current := r.config, currentTime := some r.elapsed_ms,
                         acceptOracle := rest }
              else { s with acceptOracle := rest }
          | [] => s
  else s

/-- Modelled from the spec: the annealing state after a number of
`next()` iterations (§4.3). -/
def Annealing.afterIters : Nat → Annealing → Annealing
  | 0, s => s
  | k + 1, s => Annealing.afterIters k (s.next).2

/-- A concrete annealing state with temperature 1, cooling factor 1/2,
floor 1/8 and an iteration budget of 1. -/
def annealEx : Annealing :=
  { current := [("BS", 1)], currentTime := none, temperature := 1,
    cooling := 1/2, floor := 1/8, iter := 0, budget := 1,
    space := [("BS", [1])], constraints := [], validConfigs := [[("BS", 1)]],
    maxRetries := 1, rng := [], acceptOracle := [] }

/-- Modelled from the spec: a particle — "a point in the (integer-valued)
parameter space with an associated per-parameter velocity" and a
personal best (§4.3); positions are per-parameter domain indices. -/
structure Particle where
  position : List Nat
  velocity : List Rat
  pbestPos : List Nat
  pbestTime : Option Rat
deriving Repr

/-- Modelled from the spec: Particle-Swarm Optimization state (§4.3) — a
fixed-size set of particles, the swarm's global best, the velocity
weights, a cycling proposal counter, generation and stagnation counters
with their bounds, a pseudo-random stream, and the terminal-state flag
("once false it stays false (terminal state)", §4.3). -/
structure PSO where
  space : ParamSpace
  constraints : List Constraint
  particles : List Particle
  gbestPos : List Nat
  gbestTime : Option Rat
  inertia : Rat
  cPersonal : Rat
  cGlobal : Rat
  counter : Nat
  lastProposed : Option Nat
  generation : Nat
  maxGenerations : Nat
  stagnation : Nat
  stagnationBound : Nat
  maxRetries : Nat
  rng : List Nat
  terminated : Bool
deriving Repr

/-- Modelled from the spec: a pseudo-random coefficient in [0, 1] drawn
from the integer random stream. -/
def rand01 (r : Nat) : Rat := ((r % 1001 : Nat) : Rat) / 1000

/-- Modelled from the spec: the configuration denoted by a particle
position — each parameter takes the domain value at its index (§4.3). -/
def positionConfig (space : ParamSpace) (pos : List Nat) : Config :=
  (space.zip pos).map (fun q => (q.1.1, (q.1.2[q.2 % q.1.2.length]?).getD 0))

/-- Modelled from the spec: one dimension of a particle move — velocity
becomes a weighted combination of inertia, the pull toward the personal
best, and the pull toward the global best; the new index is "clamped to
the domain's index range and rounded to the nearest valid domain value"
(§4.3). -/
def moveDim (inertia cP cG r1 r2 : Rat) (domLen x : Nat) (v : Rat)
    (pb gb : Nat) : Nat × Rat :=
  let vNew := inertia * v + cP * r1 * ((pb : Rat) - (x : Rat)) +
    cG * r2 * ((gb : Rat) - (x : Rat))
  let xi := (round ((x : Rat) + vNew)).toNat
  (min xi (domLen - 1), vNew)

/-- Modelled from the spec: apply the per-dimension move across all
parameters of a particle (§4.3). -/
def moveDims (inertia cP cG r1 r2 : Rat) :
    List Nat → List Nat → List Nat → List Nat → List Rat → List (Nat × Rat)
  | dl :: dls, x :: xs, pb :: pbs, gb :: gbs, v :: vs =>
      moveDim inertia cP cG r1 r2 dl x v pb gb ::
        moveDims inertia cP cG r1 r2 dls xs pbs gbs vs
  | _, _, _, _, _ => []

/-- Modelled from the spec: move one particle "toward a weighted
combination of its personal best and the swarm's global best" (§4.3). -/
def PSO.moveParticle (s : PSO) (p : Particle) (r1 r2 : Rat) : Particle :=
  let md := moveDims s.inertia s.cPersonal s.cGlobal r1 r2
    (s.space.map (fun q => q.2.length)) p.position p.pbestPos s.gbestPos p.velocity
  { p with position := md.map Prod.fst, velocity := md.map Prod.snd }

/-- Modelled from the spec: draw one domain index per parameter from the
random stream, for rejection-resampling of invalid positions (§4.3). -/
def drawIndices : Nat → List Nat → List Nat × List Nat
  | 0, rng => ([], rng)
  | n + 1, [] => (List.replicate (n + 1) 0, [])
  | n + 1, r :: rest =>
      let q := drawIndices n rest
      (r :: q.1, q.2)

/-- Modelled from the spec: "invalid positions are repaired by
rejection-resampling" bounded by the retry count; on failure the
fallback position is kept (§4.3, §4.2). -/
def repairPosition (space : ParamSpace) (cs : List Constraint) :
    List Nat → Nat → List Nat → List Nat × List Nat
  | rng, 0, fallback => (fallback, rng)
  | rng, tries + 1, fallback =>
      let q := drawIndices space.length rng
      if evalAll cs (positionConfig space q.1) then (q.1, q.2)
      else repairPosition space cs q.2 tries fallback

/-- Modelled from the spec: Particle-Swarm `has_next()` — true until the
terminal state is reached (§4.3). -/
def PSO.hasNext (s : PSO) : Bool := !s.terminated

/-- Modelled from the spec: enter the terminal state when the configured
number of generations is reached or the stagnation bound is hit; the
flag is never cleared ("once false it stays false", §4.3). -/
def PSO.latch (s : PSO) : PSO :=
  if s.maxGenerations ≤ s.generation ∨ s.stagnationBound ≤ s.stagnation then
    { s with terminated := true }
  else s

/-- Modelled from the spec: Particle-Swarm `next()` — propose the cycling
particle's configuration after moving it toward the weighted combination
of bests and repairing invalid positions; a generation ends when every
particle has moved (§4.3). -/
def PSO.next (s : PSO) : Option Config × PSO :=
  match s.particles[s.counter % s.particles.length]? with
  | none => (none, { s with terminated := true })
  | some p =>
      match s.rng with
      | r1 :: r2 :: rng1 =>
          let idx := s.counter % s.particles.length
          let p1 := s.moveParticle p (rand01 r1) (rand01 r2)
          let q :=
            if evalAll s.constraints (positionConfig s.space p1.position) then
              (p1.position, rng1)
            else repairPosition s.space s.constraints rng1 s.maxRetries p1.position
          let p2 := { p1 with position := q.1 }
          let counterNew := s.counter + 1
          let genNew :=
            if counterNew % s.particles.length = 0 then s.generation + 1
            else s.generation
          (some (positionConfig s.space q.1),
            PSO.latch { s with
              particles := s.particles.set idx p2
              counter := counterNew
              generation := genNew
              rng := q.2
              lastProposed := some idx })
      | _ => (none, { s with terminated := true })

/-- Modelled from the spec: update a particle's personal best with a
measured time (§4.3). -/
def Particle.updatePBest (p : Particle) (t : Rat) : Particle :=
  match p.pbestTime with
  | none => { p with pbestTime := some t, pbestPos := p.position }
  | some bt =>
      if t < bt then { p with pbestTime := some t, pbestPos := p.position }
      else p

/-- Modelled from the spec: whether a result improves the swarm's global
best (§4.3). -/
def PSO.improves (s : PSO) (r : ExecResult) : Bool :=
  r.status == Status.valid &&
    (match s.gbestTime with
     | none => true
     | some gt => r.elapsed_ms < gt)

/-- Modelled from the spec: fold a valid result's time into the personal
best of the particle whose configuration was last proposed (§4.3). -/
def PSO.updateParticleBest (s : PSO) (r : ExecResult) : PSO :=
  if r.status = Status.valid then
    match s.lastProposed with
    | some idx =>
        match s.particles[idx]? with
        | some p =>
            { s with particles := s.particles.set idx (p.updatePBest r.elapsed_ms) }
        | none => s
    | none => s
  else s

/-- Modelled from the spec: Particle-Swarm `record` "updates
personal/global bests"; a result that does not improve the global best
advances the stagnation counter, and hitting the stagnation bound enters
the terminal state (§4.3). -/
def PSO.recordResult (s : PSO) (r : ExecResult) : PSO :=
  let proposedPos :=
    (s.lastProposed.bind
      (fun idx => (s.particles[idx]?).map (fun p => p.position))).getD s.gbestPos
  let s1 := s.updateParticleBest r
  let s2 :=
    if s.improves r then
      { s1 with
          gbestTime := some r.elapsed_ms
          gbestPos := proposedPos
          stagnation := 0 }
    else { s1 with stagnation := s1.stagnation + 1 }
  PSO.latch s2

/-- Modelled from the spec: the recorded global-best elapsed time, ⊤ when
no valid result has been recorded yet (§4.3). -/
def PSO.gbestVal (s : PSO) : WithTop Rat :=
  match s.gbestTime with
  | none => ⊤
  | some t => (t : WithTop Rat)

/-- Modelled from the spec: the polymorphic Search Strategy — "a single
SearchStrategy capability with four concrete implementations behind a
common contract (§4.3), selected at session-construction time" (§9). -/
inductive StrategyState
  | full : FullSearch → StrategyState
  | random : RandomSearch → StrategyState
  | anneal : Annealing → StrategyState
  | pso : PSO → StrategyState

/-- Modelled from the spec: one call of the common strategy contract —
`next()` or `record(execution_result)` (§4.3). -/
inductive StrategyCall
  | nextCall
  | recordCall (r : ExecResult)

/-- Modelled from the spec: `has_next()` of the common contract,
dispatched to the active variant (§4.3). -/
def StrategyState.hasNext : StrategyState → Bool
  | StrategyState.full s => s.hasNext
  | StrategyState.random s => s.hasNext
  | StrategyState.anneal s => s.hasNext
  | StrategyState.pso s => s.hasNext

/-- Modelled from the spec: `next()` of the common contract, dispatched
to the active variant (§4.3). -/
def StrategyState.next : StrategyState → Option Config × StrategyState
  | StrategyState.full s => ((s.next).1, StrategyState.full (s.next).2)
  | StrategyState.random s => ((s.next).1, StrategyState.random (s.next).2)
  | StrategyState.anneal s => ((s.next).1, StrategyState.anneal (s.next).2)
  | StrategyState.pso s => ((s.next).1, StrategyState.pso (s.next).2)

/-- Modelled from the spec: `record(execution_result)` of the common
contract, dispatched to the active variant (§4.3). -/
def StrategyState.recordResult (s : StrategyState) (r : ExecResult) : StrategyState :=
  match s with
  | StrategyState.full s => StrategyState.full (s.recordResult r)
  | StrategyState.random s => StrategyState.random (s.recordResult r)
  | StrategyState.anneal s => StrategyState.anneal (s.recordResult r)
  | StrategyState.pso s => StrategyState.pso (s.recordResult r)

/-- Modelled from the spec: apply one contract call to a strategy state
(§4.3). -/
def StrategyState.applyCall (s : StrategyState) : StrategyCall → StrategyState
  | StrategyCall.nextCall => (s.next).2
  | StrategyCall.recordCall r => s.recordResult r

/-- Modelled from the spec: the parameter constraints a running annealing
instance satisfies — "a fixed cooling factor (< 1)" (§4.3), nonnegative
like any physical temperature; the other variants need no side
conditions. -/
def StrategyState.WF : StrategyState → Prop
  | StrategyState.anneal a => 0 ≤ a.cooling ∧ a.cooling < 1 ∧ 0 ≤ a.temperature
  | _ => True

/-- Modelled from the spec: the Kernel Runtime collaborator's outcome for
one configuration — an elapsed time with a per-configuration status, or
a fatal error ("any error ... not one of the above ... is treated as
fatal", §6, §7). -/
inductive RuntimeOutcome
  | result (elapsed_ms : Rat) (status : Status)
  | fatal

/-- Modelled from the spec: the Tuning Pipeline's state — the active
strategy, the Leaderboard it owns, all recorded Execution Results, and
whether a fatal error aborted the session (§4.4, §7). -/
structure PipelineState where
  strat : StrategyState
  leaderboard : List ExecResult
  results : List ExecResult
  fatal : Bool

/-- Modelled from the spec: insert a Valid result into the Leaderboard,
"ordered by ascending elapsed time" (§3). -/
def insertLeaderboard (r : ExecResult) : List ExecResult → List ExecResult
  | [] => [r]
  | x :: xs =>
      if r.elapsed_ms ≤ x.elapsed_ms then r :: x :: xs
      else x :: insertLeaderboard r xs

/-- Modelled from the spec: fold one Kernel Runtime outcome into the
pipeline state — "wrap the outcome as an Execution Result, call record
on the strategy, and insert into the Leaderboard if status is Valid"; a
fatal runtime error aborts the session "preserving the Leaderboard as
already populated" (§4.4, §7). -/
def applyOutcome (st : PipelineState) (s' : StrategyState) (cfg : Config) :
    RuntimeOutcome → PipelineState
  | RuntimeOutcome.fatal => { st with strat := s', fatal := true }
  | RuntimeOutcome.result t status =>
      let r : ExecResult := ⟨cfg, t, status⟩
      { strat := s'.recordResult r
        leaderboard :=
          if status = Status.valid then insertLeaderboard r st.leaderboard
          else st.leaderboard
        results := st.results ++ [r]
        fatal := false }

/-- Modelled from the spec: dispatch a strategy proposal to the Kernel
Runtime (§4.4). -/
def proposeStep (st : PipelineState) (runtime : Config → RuntimeOutcome) :
    Option Config × StrategyState → PipelineState
  | (some cfg, s') => applyOutcome st s' cfg (runtime cfg)
  | (none, s') => { st with strat := s' }

/-- Modelled from the spec: one Tuning Pipeline iteration — "pull the
next Configuration, hand it to the Kernel Runtime ..., wrap the outcome
as an Execution Result"; a per-configuration failure "never aborts the
session" (§4.4, §7). -/
def pipelineStep (runtime : Config → RuntimeOutcome) (st : PipelineState) :
    PipelineState :=
  if st.fatal = true then st
  else if st.strat.hasNext = true then proposeStep st runtime st.strat.next
  else st

/-- Modelled from the spec: the Tuning Pipeline loop — iterate "while the
active Search Strategy has_next()" and no fatal error occurred, bounded
by fuel (§4.4). -/
def runPipeline (runtime : Config → RuntimeOutcome) :
    Nat → PipelineState → PipelineState
  | 0, st => st
  | fuel + 1, st =>
      if st.strat.hasNext = true ∧ st.fatal = false then
        runPipeline runtime fuel (pipelineStep runtime st)
      else st

/-- Modelled from the spec: a fresh Tuning Pipeline session over a
strategy — empty Leaderboard, no results, no fatal error (§4.4). -/
def initPipeline (s : StrategyState) : PipelineState := ⟨s, [], [], false⟩

/-- The parameter space of the spec's second end-to-end scenario:
BS ∈ \x7b1,2,4\x7d, no constraints (§8). -/
def spaceBS : ParamSpace := [("BS", [1, 2, 4])]

/-- The Kernel Runtime stub of the spec's second end-to-end scenario:
"returns elapsed_ms = 10/BS with status Valid" (§8). -/
def runtimeBS : Config → RuntimeOutcome :=
  fun cfg => RuntimeOutcome.result (10 / (lookupVal cfg "BS" : Rat)) Status.valid

/-- The full pipeline run of the BS scenario under Full Search (§8). -/
def pipelineBS : PipelineState :=
  runPipeline runtimeBS 3
    (initPipeline (StrategyState.full (FullSearch.init (generate spaceBS []))))

/-- A Kernel Runtime stub with mixed per-configuration failures:
LaunchFailed (1 ms) when A = 2, CorrectnessFailed (2 ms) otherwise
(§4.4, §7). -/
def mixedRuntime (cfg : Config) : RuntimeOutcome :=
  if lookupVal cfg "A" = 2 then RuntimeOutcome.result 1 Status.launchFailed
  else RuntimeOutcome.result 2 Status.correctnessFailed

/-- The `Searcher` base-class state: the configurations handed to the
constructor, the execution-times vector, and the counter `i`
(`src/src/searcher.cc:36-40`); `double` times are modelled as `Rat`. -/
structure Searcher where
  configurations_ : List Config
  execution_times_ : List Rat
  i : Nat

/-- `Searcher::Searcher` (`src/src/searcher.cc:36-40`): stores the given
configurations, starts with an empty execution-times vector and `i = 0`. -/
def Searcher.mkSearcher (configurations : List Config) : Searcher :=
  ⟨configurations, [], 0⟩

/-- `Searcher::PushExecutionTime` (`src/src/searcher.cc:43-45`): "Adds the
resulting execution time to the back of the execution times vector". -/
def Searcher.PushExecutionTime (s : Searcher) (time : Rat) : Searcher :=
  { s with execution_times_ := s.execution_times_ ++ [time] }

/-- The Leaderboard invariant: only Valid results, ordered by ascending
elapsed time (§3). -/
def leaderboardInv (l : List ExecResult) : Prop :=
  (∀ r ∈ l, r.status = Status.valid) ∧
  l.Pairwise (fun a b => a.elapsed_ms ≤ b.elapsed_ms)

/-- Claim C1: every Configuration produced by the Configuration Generator
satisfies every registered Constraint, and for the constraint
"A multiple-of B" with A over \x7b2,4,8\x7d and B over \x7b2,3\x7d the generator
yields exactly (A=2,B=2), (A=4,B=2), (A=8,B=2) in that order and no
others. -/
theorem generate_satisfies_constraints :
    (∀ (ps : ParamSpace) (cs : List Constraint) (cfg : Config),
        cfg ∈ generate ps cs → ∀ c ∈ cs, c.eval cfg = true) ∧
    generate spaceAB [constraintAB] =
      [[("A", 2), ("B", 2)], [("A", 4), ("B", 2)], [("A", 8), ("B", 2)]] := by
  constructor
  · intro ps cs cfg hmem c hc
    have h := List.of_mem_filter hmem
    exact List.all_eq_true.mp h c hc
  · decide

/-- Witness for C1: the universal part applied at the scenario's space,
constraint and first generated configuration. -/
theorem generate_satisfies_constraints_witness :
    constraintAB.eval [("A", 2), ("B", 2)] = true :=
  generate_satisfies_constraints.1 spaceAB [constraintAB]
    [("A", 2), ("B", 2)] (by decide) constraintAB (by decide)

/-- Claim C5: constraint chains compose left-to-right, so the gemm
constraint "KWG multiple-of MDIMC multiplied-by NDIMC divided-by MDIMA"
holds exactly when ((MDIMC * NDIMC) / MDIMA) divides KWG; a configuration
is valid only if all registered constraints evaluate true, and the
conjunctive evaluation short-circuits: a failing head constraint makes
the whole evaluation false whatever the tail. -/
theorem constraint_chain_left_to_right :
    (∀ cfg : Config,
        gemmConstraint.eval cfg = true ↔
          (lookupVal cfg "MDIMC" * lookupVal cfg "NDIMC" / lookupVal cfg "MDIMA")
            ∣ lookupVal cfg "KWG") ∧
    (∀ (cfg : Config) (cs : List Constraint),
        evalAll cs cfg = true ↔ ∀ c ∈ cs, c.eval cfg = true) ∧
    (∀ (cfg : Config) (c : Constraint) (cs : List Constraint),
        c.eval cfg = false → evalAll (c :: cs) cfg = false) := by
  refine ⟨?_, ?_, ?_⟩
  · intro cfg
    show (lookupVal cfg "KWG" % chainValue cfg gemmConstraint == 0) = true ↔ _
    rw [beq_iff_eq]
    show lookupVal cfg "KWG" %
        (lookupVal cfg "MDIMC" * lookupVal cfg "NDIMC" / lookupVal cfg "MDIMA") = 0 ↔ _
    exact ⟨Nat.dvd_of_mod_eq_zero, Nat.mod_eq_zero_of_dvd⟩
  · intro cfg cs
    exact List.all_eq_true
  · intro cfg c cs h
    simp [evalAll, h]

theorem fullSearch_proposalsAux_eq (fuel : Nat) :
    ∀ (g : List Config) (i : Nat),
      FullSearch.proposalsAux fuel ⟨g, i⟩ = (g.drop i).take fuel := by
  induction fuel with
  | zero => intro g i; simp [FullSearch.proposalsAux]
  | succ fuel ih =>
    intro g i
    by_cases h : i < g.length
    · have hget : g[i]? = some g[i] := List.getElem?_eq_getElem h
      rw [FullSearch.proposalsAux]
      simp only [FullSearch.hasNext, FullSearch.next, hget, decide_eq_true_eq, h, if_true]
      rw [ih g (i + 1), List.drop_eq_getElem_cons h, List.take_cons (Nat.succ_pos fuel)]
      simp
    · have hhn : FullSearch.hasNext ⟨g, i⟩ = false := by
        simp [FullSearch.hasNext, Nat.not_lt.mp h, Nat.le_of_not_lt h]
      rw [FullSearch.proposalsAux, hhn]
      simp [List.drop_eq_nil_of_le (Nat.le_of_not_lt h)]

theorem cartesian_nodup (ps : ParamSpace) (h : ∀ p ∈ ps, (p.2).Nodup) :
    (cartesian ps).Nodup := by
  induction ps with
  | nil => simp [cartesian]
  | cons p rest ih =>
    obtain ⟨n, vs⟩ := p
    have hvs : vs.Nodup := h (n, vs) (by simp)
    have hrest : (cartesian rest).Nodup := ih (fun q hq => h q (by simp [hq]))
    show (vs.flatMap (fun v => (cartesian rest).map (fun c => (n, v) :: c))).Nodup
    refine List.nodup_flatMap.2 ⟨?_, ?_⟩
    · intro v _
      exact hrest.map (fun c c' hcc => by injection hcc)
    · refine hvs.imp ?_
      intro v v' hne x hx hx'
      obtain ⟨c, _, rfl⟩ := List.mem_map.1 hx
      obtain ⟨c', _, heq⟩ := List.mem_map.1 hx'
      have : (n, v') = (n, v) := by injection heq
      exact hne (by injection this with h1 h2; exact h2.symm)

/-- Claim C2: over a full run, Full Search proposes exactly the
generator's sequence — every valid configuration once, in the order of
the Cartesian product of the domains in declaration order — with no
duplicates (given duplicate-free domains), and the number of proposals
equals the count of the constrained Cartesian product. -/
theorem fullSearch_enumerates (ps : ParamSpace) (cs : List Constraint)
    (hnd : ∀ p ∈ ps, (p.2).Nodup) :
    FullSearch.proposalsAux (generate ps cs).length (FullSearch.init (generate ps cs)) =
        generate ps cs ∧
    (FullSearch.proposalsAux (generate ps cs).length
        (FullSearch.init (generate ps cs))).Nodup ∧
    (generate ps cs).length = (cartesian ps).countP (evalAll cs) := by
  have hrun : FullSearch.proposalsAux (generate ps cs).length
      (FullSearch.init (generate ps cs)) = generate ps cs := by
    rw [FullSearch.init, fullSearch_proposalsAux_eq]
    simp
  refine ⟨hrun, ?_, ?_⟩
  · rw [hrun]
    exact (cartesian_nodup ps hnd).filter _
  · exact (List.countP_eq_length_filter _ _).symm

/-- Witness for C2: the theorem applied to the multiple-of scenario's
space and constraint. -/
theorem fullSearch_enumerates_witness :
    FullSearch.proposalsAux (generate spaceAB [constraintAB]).length
        (FullSearch.init (generate spaceAB [constraintAB])) =
      generate spaceAB [constraintAB] ∧
    (FullSearch.proposalsAux (generate spaceAB [constraintAB]).length
        (FullSearch.init (generate spaceAB [constraintAB]))).Nodup ∧
    (generate spaceAB [constraintAB]).length =
      (cartesian spaceAB).countP (evalAll [constraintAB]) :=
  fullSearch_enumerates spaceAB [constraintAB] (by decide)

theorem sampleUnseen_not_seen (validConfigs seen : List Config) :
    ∀ (rng : List Nat) (tries : Nat) (cfg : Config) (rng' : List Nat),
      sampleUnseen validConfigs seen rng tries = some (cfg, rng') → cfg ∉ seen := by
  intro rng
  induction rng with
  | nil => intro tries cfg rng' h; cases tries <;> simp [sampleUnseen] at h
  | cons r rest ih =>
    intro tries cfg rng' h
    cases tries with
    | zero => simp [sampleUnseen] at h
    | succ tries =>
      rw [sampleUnseen] at h
      cases hget : validConfigs[r % validConfigs.length]? with
      | none => rw [hget] at h; simp at h
      | some c =>
        rw [hget] at h
        by_cases hmem : c ∈ seen
        · simp only [hmem, ite_true] at h
          exact ih tries cfg rng' h
        · simp only [hmem, ite_false, Option.some.injEq, Prod.mk.injEq] at h
          rw [← h.1]
          exact hmem

theorem randomSearch_mem_run_not_seen :
    ∀ (fuel : Nat) (s : RandomSearch) (c : Config),
      c ∈ (RandomSearch.runAux fuel s).1 → c ∉ s.seen := by
  intro fuel
  induction fuel with
  | zero => intro s c h; simp [RandomSearch.runAux] at h
  | succ fuel ih =>
    intro s c h
    rw [RandomSearch.runAux] at h
    by_cases hn : s.hasNext
    · rw [if_pos hn] at h
      cases hnext : s.next with
      | mk oc s' =>
        cases oc with
        | none => rw [hnext] at h; simp at h
        | some cfg =>
          rw [hnext] at h
          simp only [List.mem_cons] at h
          have hs : cfg ∉ s.seen ∧ s'.seen = cfg :: s.seen := by
            rw [RandomSearch.next] at hnext
            cases hsmp : sampleUnseen s.validConfigs s.seen s.rng s.maxRetries with
            | none => rw [hsmp] at hnext; simp at hnext
            | some p =>
              rw [hsmp] at hnext
              simp only [Option.some.injEq, Prod.mk.injEq] at hnext
              obtain ⟨h1, h2⟩ := hnext
              constructor
              · rw [← h1]
                exact sampleUnseen_not_seen s.validConfigs s.seen s.rng s.maxRetries
                  p.1 p.2 (by rw [hsmp])
              · rw [← h2, ← h1]
          rcases h with h | h
          · rw [h]; exact hs.1
          · have := ih s' c h
            rw [hs.2] at this
            intro hc
            exact this (List.mem_cons_of_mem _ hc)
    · rw [if_neg hn] at h
      simp at h

theorem randomSearch_run_nodup :
    ∀ (fuel : Nat) (s : RandomSearch), ((RandomSearch.runAux fuel s).1).Nodup := by
  intro fuel
  induction fuel with
  | zero => intro s; simp [RandomSearch.runAux]
  | succ fuel ih =>
    intro s
    rw [RandomSearch.runAux]
    by_cases hn : s.hasNext
    · rw [if_pos hn]
      cases hnext : s.next with
      | mk oc s' =>
        cases oc with
        | none => simp
        | some cfg =>
          simp only [List.nodup_cons]
          refine ⟨?_, ih s'⟩
          intro hmem
          have hseen : cfg ∈ s'.seen := by
            rw [RandomSearch.next] at hnext
            cases hsmp : sampleUnseen s.validConfigs s.seen s.rng s.maxRetries with
            | none => rw [hsmp] at hnext; simp at hnext
            | some p =>
              rw [hsmp] at hnext
              simp only [Option.some.injEq, Prod.mk.injEq] at hnext
              rw [← hnext.2, ← hnext.1]
              exact List.mem_cons_self _ _
          exact randomSearch_mem_run_not_seen fuel s' cfg hmem hseen
    · rw [if_neg hn]; simp

theorem randomSearch_run_length :
    ∀ (fuel : Nat) (s : RandomSearch),
      ((RandomSearch.runAux fuel s).1).length ≤ fuel := by
  intro fuel
  induction fuel with
  | zero => intro s; simp [RandomSearch.runAux]
  | succ fuel ih =>
    intro s
    rw [RandomSearch.runAux]
    by_cases hn : s.hasNext
    · rw [if_pos hn]
      cases hnext : s.next with
      | mk oc s' =>
        cases oc with
        | none => simp
        | some cfg =>
          simp only [List.length_cons]
          exact Nat.succ_le_succ (ih s')
    · rw [if_neg hn]; simp

theorem randomSearch_run_terminates :
    ∀ (fuel : Nat) (s : RandomSearch), s.drawsLeft ≤ fuel →
      ((RandomSearch.runAux fuel s).2).hasNext = false := by
  intro fuel
  induction fuel with
  | zero =>
    intro s hle
    have : s.drawsLeft = 0 := Nat.le_zero.mp hle
    simp [RandomSearch.runAux, RandomSearch.hasNext, this]
  | succ fuel ih =>
    intro s hle
    rw [RandomSearch.runAux]
    by_cases hn : s.hasNext
    · rw [if_pos hn]
      cases hnext : s.next with
      | mk oc s' =>
        cases oc with
        | none =>
          have : s'.exhausted = true := by
            rw [RandomSearch.next] at hnext
            cases hsmp : sampleUnseen s.validConfigs s.seen s.rng s.maxRetries with
            | none => rw [hsmp] at hnext; simp only [Prod.mk.injEq] at hnext; rw [← hnext.2]
            | some p => rw [hsmp] at hnext; simp at hnext
          simp [RandomSearch.hasNext, this]
        | some cfg =>
          have hdl : s'.drawsLeft = s.drawsLeft - 1 := by
            rw [RandomSearch.next] at hnext
            cases hsmp : sampleUnseen s.validConfigs s.seen s.rng s.maxRetries with
            | none => rw [hsmp] at hnext; simp at hnext
            | some p =>
              rw [hsmp] at hnext
              simp only [Option.some.injEq, Prod.mk.injEq] at hnext
              rw [← hnext.2]
          exact ih s' (by rw [hdl]; omega)
    · rw [if_neg hn]
      simpa using hn

/-- Claim C6: within one Random Search run no configuration is proposed
twice, the number of proposals never exceeds the configured draw limit,
and running the full draw budget ends with `has_next()` false — the run
stops at the draw limit or when the space is exhausted, whichever comes
first. -/
theorem randomSearch_no_repeats (s : RandomSearch) :
    ((RandomSearch.runAux s.drawsLeft s).1).Nodup ∧
    ((RandomSearch.runAux s.drawsLeft s).1).length ≤ s.drawsLeft ∧
    ((RandomSearch.runAux s.drawsLeft s).2).hasNext = false :=
  ⟨randomSearch_run_nodup s.drawsLeft s,
   randomSearch_run_length s.drawsLeft s,
   randomSearch_run_terminates s.drawsLeft s (Nat.le_refl _)⟩

theorem annealing_next_temperature (s : Annealing) :
    ((s.next).2).temperature = s.cooling * s.temperature ∧
    ((s.next).2).cooling = s.cooling := by
  rw [Annealing.next]
  cases hp : perturbValid s.space s.constraints s.current s.rng s.maxRetries with
  | some p => exact ⟨rfl, rfl⟩
  | none =>
      cases hs : sampleUnseen s.validConfigs [] s.rng s.maxRetries with
      | some p => exact ⟨rfl, rfl⟩
      | none => exact ⟨rfl, rfl⟩

theorem annealing_afterIters_temperature (k : Nat) :
    ∀ s : Annealing,
      (Annealing.afterIters k s).temperature = s.cooling ^ k * s.temperature := by
  induction k with
  | zero => intro s; simp [Annealing.afterIters]
  | succ k ih =>
    intro s
    rw [Annealing.afterIters, ih (s.next).2,
      (annealing_next_temperature s).1, (annealing_next_temperature s).2,
      pow_succ]
    ring

/-- Claim C7 (amended): the temperature follows an exact geometric decay
(cooling ^ k times the initial temperature after k iterations), is
monotonically non-increasing across the iteration sequence whenever the
cooling factor lies in [0, 1) and the temperature starts nonnegative,
and falls to or below the floor threshold within the iteration budget
provided the budget is large enough for the decay to reach the floor
(cooling ^ budget · T₀ ≤ floor). -/
theorem annealing_temperature_decay (s : Annealing) (k : Nat)
    (hc0 : 0 ≤ s.cooling) (hc1 : s.cooling < 1) (ht : 0 ≤ s.temperature) :
    (Annealing.afterIters k s).temperature = s.cooling ^ k * s.temperature ∧
    (Annealing.afterIters (k + 1) s).temperature ≤
      (Annealing.afterIters k s).temperature ∧
    (s.cooling ^ s.budget * s.temperature ≤ s.floor →
      (Annealing.afterIters s.budget s).temperature ≤ s.floor) := by
  refine ⟨annealing_afterIters_temperature k s, ?_, ?_⟩
  · rw [annealing_afterIters_temperature k s,
      annealing_afterIters_temperature (k + 1) s, pow_succ]
    have hpk : (0 : Rat) ≤ s.cooling ^ k := pow_nonneg hc0 k
    have hct : s.cooling * s.temperature ≤ s.temperature :=
      mul_le_of_le_one_left ht (le_of_lt hc1)
    calc s.cooling ^ k * s.cooling * s.temperature
        = s.cooling ^ k * (s.cooling * s.temperature) := by ring
      _ ≤ s.cooling ^ k * s.temperature := mul_le_mul_of_nonneg_left hct hpk
  · intro hfl
    rw [annealing_afterIters_temperature s.budget s]
    exact hfl

/-- Witness for C7: the decay theorem applied to the concrete state
`annealEx` with its budget raised to 3, where (1/2)³ · 1 ≤ 1/8. -/
theorem annealing_temperature_decay_witness :
    (Annealing.afterIters 2 { annealEx with budget := 3 }).temperature =
      { annealEx with budget := 3 }.cooling ^ 2 *
        { annealEx with budget := 3 }.temperature ∧
    (Annealing.afterIters 3 { annealEx with budget := 3 }).temperature ≤
      (Annealing.afterIters 2 { annealEx with budget := 3 }).temperature ∧
    ({ annealEx with budget := 3 }.cooling ^ { annealEx with budget := 3 }.budget *
        { annealEx with budget := 3 }.temperature ≤
          { annealEx with budget := 3 }.floor →
      (Annealing.afterIters { annealEx with budget := 3 }.budget
          { annealEx with budget := 3 }).temperature ≤
        { annealEx with budget := 3 }.floor) :=
  annealing_temperature_decay { annealEx with budget := 3 } 2
    (by norm_num [annealEx]) (by norm_num [annealEx]) (by norm_num [annealEx])

/-- Counterexample for C7 as stated: for the state `annealEx` — cooling
factor 1/2 (indeed < 1), temperature 1, floor 1/8, iteration budget 1 —
the temperature stays strictly above the floor at every point within the
budget (iterations 0 and 1), so it does not fall to or below the floor
threshold within the configured iteration budget. -/
theorem annealing_floor_not_reached :
    annealEx.cooling < 1 ∧ 0 < annealEx.cooling ∧
    annealEx.floor < (Annealing.afterIters 0 annealEx).temperature ∧
    annealEx.floor < (Annealing.afterIters 1 annealEx).temperature := by
  have h1 : (Annealing.afterIters 1 annealEx).temperature =
      annealEx.cooling ^ 1 * annealEx.temperature :=
    annealing_afterIters_temperature 1 annealEx
  refine ⟨by norm_num [annealEx], by norm_num [annealEx],
    by norm_num [annealEx, Annealing.afterIters], ?_⟩
  rw [h1]
  norm_num [annealEx]

theorem pso_latch_gbestTime (s : PSO) : (PSO.latch s).gbestTime = s.gbestTime := by
  rw [PSO.latch]
  by_cases h : s.maxGenerations ≤ s.generation ∨ s.stagnationBound ≤ s.stagnation
  · rw [if_pos h]
  · rw [if_neg h]

theorem pso_updateParticleBest_gbestTime (s : PSO) (r : ExecResult) :
    (s.updateParticleBest r).gbestTime = s.gbestTime := by
  rw [PSO.updateParticleBest]
  by_cases hst : r.status = Status.valid
  · rw [if_pos hst]
    cases s.lastProposed with
    | none => rfl
    | some idx =>
        cases hp : s.particles[idx]? with
        | none => simp only [hp]
        | some p => simp only [hp]
  · rw [if_neg hst]

theorem pso_record_gbest_le (s : PSO) (r : ExecResult) :
    (s.recordResult r).gbestVal ≤ s.gbestVal := by
  rw [PSO.recordResult]
  by_cases himp : s.improves r
  · rw [if_pos himp]
    rw [PSO.gbestVal, pso_latch_gbestTime]
    rw [PSO.improves] at himp
    cases hgt : s.gbestTime with
    | none => rw [PSO.gbestVal, hgt]; exact le_top
    | some gt =>
        rw [hgt] at himp
        simp only [Bool.and_eq_true, decide_eq_true_eq] at himp
        rw [PSO.gbestVal, hgt]
        show ((r.elapsed_ms : Rat) : WithTop Rat) ≤ ((gt : Rat) : WithTop Rat)
        exact_mod_cast le_of_lt himp.2
  · rw [if_neg himp]
    rw [PSO.gbestVal, pso_latch_gbestTime]
    simp only [pso_updateParticleBest_gbestTime s r]
    rw [PSO.gbestVal]

/-- Claim C8: each Particle-Swarm `record` call leaves the recorded
global-best elapsed time less than or equal to its previous value, so
across any sequence of recorded results — in particular across
generations — the global best is monotonically non-increasing. -/
theorem pso_gbest_monotone :
    (∀ (s : PSO) (r : ExecResult), (s.recordResult r).gbestVal ≤ s.gbestVal) ∧
    (∀ (s : PSO) (rs : List ExecResult),
      (rs.foldl PSO.recordResult s).gbestVal ≤ s.gbestVal) := by
  refine ⟨pso_record_gbest_le, ?_⟩
  intro s rs
  induction rs generalizing s with
  | nil => exact le_refl _
  | cons r rs ih =>
      have h1 : List.foldl PSO.recordResult s (r :: rs) =
          List.foldl PSO.recordResult (s.recordResult r) rs := rfl
      rw [h1]
      exact le_trans (ih (s.recordResult r)) (pso_record_gbest_le s r)

theorem annealing_record_frame (s : Annealing) (r : ExecResult) :
    (s.recordResult r).temperature = s.temperature ∧
    (s.recordResult r).cooling = s.cooling ∧
    (s.recordResult r).iter = s.iter ∧
    (s.recordResult r).budget = s.budget ∧
    (s.recordResult r).floor = s.floor := by
  rw [Annealing.recordResult]
  by_cases hst : r.status = Status.valid
  · rw [if_pos hst]
    cases s.currentTime with
    | none => exact ⟨rfl, rfl, rfl, rfl, rfl⟩
    | some t =>
        by_cases hlt : r.elapsed_ms < t
        · simp [hlt]
        · simp only [hlt, ite_false]
          cases s.acceptOracle with
          | nil => exact ⟨rfl, rfl, rfl, rfl, rfl⟩
          | cons b rest =>
              cases b with
              | false => exact ⟨rfl, rfl, rfl, rfl, rfl⟩
              | true => exact ⟨rfl, rfl, rfl, rfl, rfl⟩
  · rw [if_neg hst]
    exact ⟨rfl, rfl, rfl, rfl, rfl⟩

theorem annealing_next_frame (s : Annealing) :
    ((s.next).2).iter = s.iter + 1 ∧
    ((s.next).2).budget = s.budget ∧
    ((s.next).2).floor = s.floor := by
  rw [Annealing.next]
  cases hp : perturbValid s.space s.constraints s.current s.rng s.maxRetries with
  | some p => exact ⟨rfl, rfl, rfl⟩
  | none =>
      cases hs : sampleUnseen s.validConfigs [] s.rng s.maxRetries with
      | some p => exact ⟨rfl, rfl, rfl⟩
      | none => exact ⟨rfl, rfl, rfl⟩

theorem pso_updateParticleBest_terminated (s : PSO) (r : ExecResult) :
    (s.updateParticleBest r).terminated = s.terminated ∧
    (s.updateParticleBest r).stagnation = s.stagnation := by
  rw [PSO.updateParticleBest]
  by_cases hst : r.status = Status.valid
  · rw [if_pos hst]
    cases s.lastProposed with
    | none => exact ⟨rfl, rfl⟩
    | some idx =>
        cases hp : s.particles[idx]? with
        | none => simp [hp]
        | some p => simp [hp]
  · rw [if_neg hst]
    exact ⟨rfl, rfl⟩

theorem pso_latch_terminated_mono (s : PSO) (h : s.terminated = true) :
    (PSO.latch s).terminated = true := by
  rw [PSO.latch]
  by_cases hc : s.maxGenerations ≤ s.generation ∨ s.stagnationBound ≤ s.stagnation
  · rw [if_pos hc]
  · rw [if_neg hc]; exact h

theorem pso_next_terminated_mono (s : PSO) (h : s.terminated = true) :
    ((PSO.next s).2).terminated = true := by
  rw [PSO.next]
  cases hp : s.particles[s.counter % s.particles.length]? with
  | none => rfl
  | some p =>
      cases hr : s.rng with
      | nil => rfl
      | cons r1 rest =>
          cases rest with
          | nil => rfl
          | cons r2 rng1 =>
              exact pso_latch_terminated_mono _ h

theorem pso_record_terminated_mono (s : PSO) (r : ExecResult)
    (h : s.terminated = true) : (s.recordResult r).terminated = true := by
  rw [PSO.recordResult]
  by_cases himp : s.improves r
  · rw [if_pos himp]
    exact pso_latch_terminated_mono _
      (by rw [(pso_updateParticleBest_terminated s r).1]; exact h)
  · rw [if_neg himp]
    exact pso_latch_terminated_mono _
      (by rw [(pso_updateParticleBest_terminated s r).1]; exact h)

theorem strategy_applyCall_next (s : StrategyState) :
    s.applyCall StrategyCall.nextCall = (s.next).2 := rfl

theorem strategy_applyCall_record (s : StrategyState) (r : ExecResult) :
    s.applyCall (StrategyCall.recordCall r) = s.recordResult r := rfl

theorem strategy_step_wf (s : StrategyState) (c : StrategyCall)
    (hwf : s.WF) : (s.applyCall c).WF := by
  cases c with
  | nextCall =>
      cases s with
      | full s => trivial
      | random s => trivial
      | pso s => trivial
      | anneal s =>
          obtain ⟨h0, h1, ht⟩ := hwf
          refine ⟨?_, ?_, ?_⟩
          · rw [(annealing_next_temperature s).2]
            exact h0
          · rw [(annealing_next_temperature s).2]
            exact h1
          · rw [(annealing_next_temperature s).1]
            exact mul_nonneg h0 ht
  | recordCall r =>
      cases s with
      | full s => trivial
      | random s => trivial
      | pso s => trivial
      | anneal s =>
          obtain ⟨h0, h1, ht⟩ := hwf
          refine ⟨?_, ?_, ?_⟩
          · rw [(annealing_record_frame s r).2.1]
            exact h0
          · rw [(annealing_record_frame s r).2.1]
            exact h1
          · rw [(annealing_record_frame s r).1]
            exact ht

theorem strategy_step_absorbing (s : StrategyState) (c : StrategyCall)
    (hwf : s.WF) (h : s.hasNext = false) : (s.applyCall c).hasNext = false := by
  cases c with
  | nextCall =>
      cases s with
      | full s =>
          rw [strategy_applyCall_next, StrategyState.next, StrategyState.hasNext]
          rw [StrategyState.hasNext, FullSearch.hasNext] at h
          rw [FullSearch.hasNext, FullSearch.next]
          simp only [decide_eq_false_iff_not, Nat.not_lt] at h ⊢
          omega
      | random s =>
          rw [strategy_applyCall_next, StrategyState.next, StrategyState.hasNext]
          rw [StrategyState.hasNext, RandomSearch.hasNext] at h
          rw [RandomSearch.hasNext, RandomSearch.next]
          cases hsmp : sampleUnseen s.validConfigs s.seen s.rng s.maxRetries with
          | some p =>
              simp only [Bool.and_eq_false_iff, decide_eq_false_iff_not,
                Nat.not_lt, Nat.le_zero, Bool.not_eq_false] at h ⊢
              rcases h with h | h
              · left; omega
              · right; exact h
          | none => simp
      | anneal s =>
          obtain ⟨h0, h1, ht⟩ := hwf
          rw [strategy_applyCall_next, StrategyState.next, StrategyState.hasNext]
          rw [StrategyState.hasNext, Annealing.hasNext] at h
          rw [Annealing.hasNext, (annealing_next_frame s).1,
            (annealing_next_frame s).2.1, (annealing_next_frame s).2.2,
            (annealing_next_temperature s).1]
          simp only [Bool.and_eq_false_iff, decide_eq_false_iff_not,
            Nat.not_lt, not_le] at h ⊢
          rcases h with h | h
          · left; omega
          · right
            calc s.cooling * s.temperature ≤ s.temperature :=
                mul_le_of_le_one_left ht (le_of_lt h1)
              _ < s.floor := h
      | pso s =>
          rw [strategy_applyCall_next, StrategyState.next, StrategyState.hasNext]
          rw [StrategyState.hasNext, PSO.hasNext] at h
          rw [PSO.hasNext]
          simp only [Bool.not_eq_false'] at h ⊢
          exact pso_next_terminated_mono s h
  | recordCall r =>
      cases s with
      | full s => exact h
      | random s => exact h
      | anneal s =>
          rw [strategy_applyCall_record, StrategyState.recordResult, StrategyState.hasNext]
          rw [StrategyState.hasNext, Annealing.hasNext] at h
          rw [Annealing.hasNext, (annealing_record_frame s r).1,
            (annealing_record_frame s r).2.2.1,
            (annealing_record_frame s r).2.2.2.1,
            (annealing_record_frame s r).2.2.2.2]
          exact h
      | pso s =>
          rw [strategy_applyCall_record, StrategyState.recordResult, StrategyState.hasNext]
          rw [StrategyState.hasNext, PSO.hasNext] at h
          rw [PSO.hasNext]
          simp only [Bool.not_eq_false'] at h ⊢
          exact pso_record_terminated_mono s r h

/-- Claim C9: for every strategy variant (Full, Random, Annealing,
Particle-Swarm) and every sequence of next()/record() calls, once
`has_next()` is false it remains false after every further call — the
terminated state is absorbing (for annealing, under the spec's own
parameter conditions: cooling factor in [0, 1) and a nonnegative
temperature). -/
theorem hasNext_absorbing (s : StrategyState) (calls : List StrategyCall)
    (hwf : s.WF) (h : s.hasNext = false) :
    (calls.foldl StrategyState.applyCall s).hasNext = false := by
  induction calls generalizing s with
  | nil => exact h
  | cons c cs ih =>
      have h1 : List.foldl StrategyState.applyCall s (c :: cs) =
          List.foldl StrategyState.applyCall (s.applyCall c) cs := rfl
      rw [h1]
      exact ih (s.applyCall c) (strategy_step_wf s c hwf)
        (strategy_step_absorbing s c hwf h)

/-- Witness for C9: an exhausted Full Search stays exhausted across a
next() and a record() call. -/
theorem hasNext_absorbing_witness :
    (([StrategyCall.nextCall,
        StrategyCall.recordCall ⟨[("A", 2)], 1, Status.valid⟩].foldl
          StrategyState.applyCall
          (StrategyState.full (FullSearch.init []))).hasNext) = false :=
  hasNext_absorbing (StrategyState.full (FullSearch.init []))
    [StrategyCall.nextCall, StrategyCall.recordCall ⟨[("A", 2)], 1, Status.valid⟩]
    trivial (by decide)

theorem searcher_push_foldl (ts : List Rat) :
    ∀ s : Searcher,
      (ts.foldl Searcher.PushExecutionTime s).execution_times_ =
          s.execution_times_ ++ ts ∧
      (ts.foldl Searcher.PushExecutionTime s).configurations_ =
          s.configurations_ ∧
      (ts.foldl Searcher.PushExecutionTime s).i = s.i := by
  induction ts with
  | nil => intro s; simp
  | cons t ts ih =>
      intro s
      have h1 : List.foldl Searcher.PushExecutionTime s (t :: ts) =
          List.foldl Searcher.PushExecutionTime (s.PushExecutionTime t) ts := rfl
      rw [h1]
      obtain ⟨he, hc, hi⟩ := ih (s.PushExecutionTime t)
      refine ⟨?_, ?_, ?_⟩
      · rw [he, Searcher.PushExecutionTime]
        simp
      · rw [hc, Searcher.PushExecutionTime]
      · rw [hi, Searcher.PushExecutionTime]

/-- Claim C10: a freshly constructed Searcher stores the given
configurations with an empty execution-times vector and counter i = 0;
PushExecutionTime appends exactly the given time at the back while
leaving the stored times, the configurations_ field, and the counter i
unchanged; hence any sequence of n pushes leaves exactly those n times
in call order. -/
theorem searcher_push_appends :
    (∀ cfgs : List Config,
        (Searcher.mkSearcher cfgs).execution_times_ = [] ∧
        (Searcher.mkSearcher cfgs).i = 0 ∧
        (Searcher.mkSearcher cfgs).configurations_ = cfgs) ∧
    (∀ (s : Searcher) (t : Rat),
        (s.PushExecutionTime t).execution_times_ = s.execution_times_ ++ [t] ∧
        (s.PushExecutionTime t).configurations_ = s.configurations_ ∧
        (s.PushExecutionTime t).i = s.i) ∧
    (∀ (cfgs : List Config) (ts : List Rat),
        (ts.foldl Searcher.PushExecutionTime
            (Searcher.mkSearcher cfgs)).execution_times_ = ts) := by
  refine ⟨?_, ?_, ?_⟩
  · intro cfgs
    exact ⟨rfl, rfl, rfl⟩
  · intro s t
    exact ⟨rfl, rfl, rfl⟩
  · intro cfgs ts
    rw [(searcher_push_foldl ts (Searcher.mkSearcher cfgs)).1]
    rfl

theorem insertLeaderboard_mem (r x : ExecResult) :
    ∀ l : List ExecResult, x ∈ insertLeaderboard r l → x = r ∨ x ∈ l := by
  intro l
  induction l with
  | nil => intro h; simp [insertLeaderboard] at h; exact Or.inl h
  | cons y ys ih =>
      intro h
      rw [insertLeaderboard] at h
      by_cases hle : r.elapsed_ms ≤ y.elapsed_ms
      · rw [if_pos hle] at h
        rcases List.mem_cons.1 h with h | h
        · exact Or.inl h
        · exact Or.inr h
      · rw [if_neg hle] at h
        rcases List.mem_cons.1 h with h | h
        · exact Or.inr (by rw [h]; exact List.mem_cons_self _ _)
        · rcases ih h with h | h
          · exact Or.inl h
          · exact Or.inr (List.mem_cons_of_mem _ h)

theorem insertLeaderboard_pairwise (r : ExecResult) :
    ∀ l : List ExecResult,
      l.Pairwise (fun a b => a.elapsed_ms ≤ b.elapsed_ms) →
      (insertLeaderboard r l).Pairwise (fun a b => a.elapsed_ms ≤ b.elapsed_ms) := by
  intro l
  induction l with
  | nil => intro _; simp [insertLeaderboard]
  | cons y ys ih =>
      intro hp
      rw [insertLeaderboard]
      rw [List.pairwise_cons] at hp
      by_cases hle : r.elapsed_ms ≤ y.elapsed_ms
      · rw [if_pos hle]
        refine List.Pairwise.cons ?_ (List.Pairwise.cons hp.1 hp.2)
        intro z hz
        rcases List.mem_cons.1 hz with h | h
        · rw [h]; exact hle
        · exact le_trans hle (hp.1 z h)
      · rw [if_neg hle]
        refine List.Pairwise.cons ?_ (ih hp.2)
        intro z hz
        rcases insertLeaderboard_mem r z ys hz with h | h
        · rw [h]; exact le_of_not_le hle
        · exact hp.1 z h

theorem pipelineStep_leaderboardInv (runtime : Config → RuntimeOutcome)
    (st : PipelineState) (h : leaderboardInv st.leaderboard) :
    leaderboardInv (pipelineStep runtime st).leaderboard := by
  rw [pipelineStep]
  by_cases hf : st.fatal = true
  · rw [if_pos hf]; exact h
  · rw [if_neg hf]
    by_cases hn : st.strat.hasNext = true
    · rw [if_pos hn]
      cases hnext : st.strat.next with
      | mk oc s' =>
          cases oc with
          | none => rw [proposeStep]; exact h
          | some cfg =>
              rw [proposeStep]
              cases hrt : runtime cfg with
              | fatal => rw [applyOutcome]; exact h
              | result t status =>
                  rw [applyOutcome]
                  by_cases hv : status = Status.valid
                  · subst hv
                    rw [if_pos rfl]
                    constructor
                    · intro x hx
                      rcases insertLeaderboard_mem ⟨cfg, t, Status.valid⟩ x
                          st.leaderboard hx with hh | hh
                      · rw [hh]
                      · exact h.1 x hh
                    · exact insertLeaderboard_pairwise _ _ h.2
                  · rw [if_neg hv]
                    exact h
    · rw [if_neg hn]; exact h

theorem runPipeline_leaderboardInv (runtime : Config → RuntimeOutcome) :
    ∀ (fuel : Nat) (st : PipelineState), leaderboardInv st.leaderboard →
      leaderboardInv (runPipeline runtime fuel st).leaderboard := by
  intro fuel
  induction fuel with
  | zero => intro st h; exact h
  | succ fuel ih =>
      intro st h
      rw [runPipeline]
      by_cases hc : st.strat.hasNext = true ∧ st.fatal = false
      · rw [if_pos hc]
        exact ih (pipelineStep runtime st) (pipelineStep_leaderboardInv runtime st h)
      · rw [if_neg hc]; exact h

/-- Claim C4: throughout every pipeline run started from an empty
Leaderboard, the Leaderboard holds only Valid results ordered by
ascending elapsed time; and in the BS scenario — space \x7bBS: [1,2,4]\x7d,
no constraints, runtime returning 10/BS with status Valid — Full Search
yields exactly 3 results and the top Leaderboard entry is BS = 4 with
elapsed 5/2. -/
theorem leaderboard_sorted_valid :
    (∀ (runtime : Config → RuntimeOutcome) (fuel : Nat) (s0 : StrategyState),
        (∀ r ∈ (runPipeline runtime fuel (initPipeline s0)).leaderboard,
            r.status = Status.valid) ∧
        ((runPipeline runtime fuel (initPipeline s0)).leaderboard).Pairwise
          (fun a b => a.elapsed_ms ≤ b.elapsed_ms)) ∧
    pipelineBS.results.length = 3 ∧
    pipelineBS.leaderboard.head? = some ⟨[("BS", 4)], 5/2, Status.valid⟩ := by
  refine ⟨?_, ?_, ?_⟩
  · intro runtime fuel s0
    exact runPipeline_leaderboardInv runtime fuel (initPipeline s0)
      ⟨fun r h => absurd h (List.not_mem_nil r), List.Pairwise.nil⟩
  · norm_num [pipelineBS, runPipeline, pipelineStep, proposeStep, applyOutcome,
      initPipeline, generate, spaceBS, cartesian, evalAll, runtimeBS, lookupVal,
      insertLeaderboard, StrategyState.hasNext, FullSearch.hasNext,
      StrategyState.next, FullSearch.next, StrategyState.recordResult,
      FullSearch.recordResult, FullSearch.init, List.lookup]
  · norm_num [pipelineBS, runPipeline, pipelineStep, proposeStep, applyOutcome,
      initPipeline, generate, spaceBS, cartesian, evalAll, runtimeBS, lookupVal,
      insertLeaderboard, StrategyState.hasNext, FullSearch.hasNext,
      StrategyState.next, FullSearch.next, StrategyState.recordResult,
      FullSearch.recordResult, FullSearch.init, List.lookup]

/-- Witness for C4: the invariant applied to the BS scenario's runtime,
fuel and strategy, at the Leaderboard's top entry. -/
theorem leaderboard_sorted_valid_witness :
    (⟨[("A", 2)], 1, Status.valid⟩ : ExecResult).status = Status.valid :=
  (leaderboard_sorted_valid.1 (fun _ => RuntimeOutcome.result 1 Status.valid) 1
      (StrategyState.full (FullSearch.init [[("A", 2)]]))).1
    ⟨[("A", 2)], 1, Status.valid⟩ (by decide)

theorem pipeline_cf_aux (runtime : Config → RuntimeOutcome)
    (hrt : ∀ cfg, ∃ t, runtime cfg = RuntimeOutcome.result t Status.compileFailed) :
    ∀ (fuel : Nat) (cfgs : List Config) (i : Nat) (res : List ExecResult),
      cfgs.length - i ≤ fuel →
      (runPipeline runtime fuel
          ⟨StrategyState.full ⟨cfgs, i⟩, [], res, false⟩).leaderboard = [] ∧
      (runPipeline runtime fuel
          ⟨StrategyState.full ⟨cfgs, i⟩, [], res, false⟩).fatal = false ∧
      (runPipeline runtime fuel
          ⟨StrategyState.full ⟨cfgs, i⟩, [], res, false⟩).strat.hasNext = false ∧
      (runPipeline runtime fuel
          ⟨StrategyState.full ⟨cfgs, i⟩, [], res, false⟩).results.length =
        res.length + (cfgs.length - i) := by
  intro fuel
  induction fuel with
  | zero =>
      intro cfgs i res hle
      have hge : cfgs.length ≤ i := by omega
      rw [runPipeline]
      refine ⟨rfl, rfl, ?_, ?_⟩
      · rw [StrategyState.hasNext, FullSearch.hasNext]
        simp [Nat.not_lt.mpr hge]
      · show res.length = res.length + (cfgs.length - i)
        omega
  | succ fuel ih =>
      intro cfgs i res hle
      by_cases hi : i < cfgs.length
      · have hhn : (StrategyState.full ⟨cfgs, i⟩).hasNext = true := by
          rw [StrategyState.hasNext, FullSearch.hasNext]
          simp [hi]
        rw [runPipeline, if_pos ⟨hhn, rfl⟩]
        obtain ⟨t, ht⟩ := hrt cfgs[i]
        have hget : cfgs[i]? = some cfgs[i] := List.getElem?_eq_getElem hi
        have hstep : pipelineStep runtime
            ⟨StrategyState.full ⟨cfgs, i⟩, [], res, false⟩ =
            ⟨StrategyState.full ⟨cfgs, i + 1⟩, [],
              res ++ [⟨cfgs[i], t, Status.compileFailed⟩], false⟩ := by
          rw [pipelineStep]
          rw [if_neg (by simp)]
          rw [if_pos hhn]
          have hnx : (StrategyState.full (⟨cfgs, i⟩ : FullSearch)).next =
              (some cfgs[i], StrategyState.full ⟨cfgs, i + 1⟩) := by
            rw [StrategyState.next, FullSearch.next, hget]
          rw [hnx, proposeStep, ht, applyOutcome]
          rw [if_neg (by simp)]
          rfl
        rw [hstep]
        obtain ⟨h1, h2, h3, h4⟩ := ih cfgs (i + 1) (res ++ [⟨cfgs[i], t, Status.compileFailed⟩]) (by omega)
        refine ⟨h1, h2, h3, ?_⟩
        rw [h4]
        simp only [List.length_append, List.length_cons, List.length_nil]
        omega
      · have hhn : (StrategyState.full ⟨cfgs, i⟩).hasNext = false := by
          rw [StrategyState.hasNext, FullSearch.hasNext]
          simp [Nat.not_lt.mp hi, Nat.le_of_not_lt hi]
        rw [runPipeline, if_neg (by rw [hhn]; simp)]
        refine ⟨rfl, rfl, hhn, ?_⟩
        show res.length = res.length + (cfgs.length - i)
        omega

theorem pipelineStep_records (runtime : Config → RuntimeOutcome)
    (hrt : ∀ cfg, ∃ t st, runtime cfg = RuntimeOutcome.result t st)
    (st : PipelineState) (hf : st.fatal = false)
    (hres : ∀ r ∈ st.results,
      runtime r.config = RuntimeOutcome.result r.elapsed_ms r.status) :
    (pipelineStep runtime st).fatal = false ∧
    ∀ r ∈ (pipelineStep runtime st).results,
      runtime r.config = RuntimeOutcome.result r.elapsed_ms r.status := by
  rw [pipelineStep]
  rw [if_neg (by simp [hf])]
  by_cases hn : st.strat.hasNext = true
  · rw [if_pos hn]
    cases hnext : st.strat.next with
    | mk oc s' =>
        cases oc with
        | none => rw [proposeStep]; exact ⟨hf, hres⟩
        | some cfg =>
            rw [proposeStep]
            obtain ⟨t, stt, ht⟩ := hrt cfg
            rw [ht, applyOutcome]
            refine ⟨rfl, ?_⟩
            intro r hr
            rcases List.mem_append.1 hr with hr | hr
            · exact hres r hr
            · have hreq := List.mem_singleton.1 hr
              subst hreq
              exact ht
  · rw [if_neg hn]; exact ⟨hf, hres⟩

theorem runPipeline_records (runtime : Config → RuntimeOutcome)
    (hrt : ∀ cfg, ∃ t st, runtime cfg = RuntimeOutcome.result t st) :
    ∀ (fuel : Nat) (st : PipelineState), st.fatal = false →
      (∀ r ∈ st.results,
        runtime r.config = RuntimeOutcome.result r.elapsed_ms r.status) →
      (runPipeline runtime fuel st).fatal = false ∧
      ∀ r ∈ (runPipeline runtime fuel st).results,
        runtime r.config = RuntimeOutcome.result r.elapsed_ms r.status := by
  intro fuel
  induction fuel with
  | zero => intro st hf hres; exact ⟨hf, hres⟩
  | succ fuel ih =>
      intro st hf hres
      rw [runPipeline]
      by_cases hc : st.strat.hasNext = true ∧ st.fatal = false
      · rw [if_pos hc]
        obtain ⟨h1, h2⟩ := pipelineStep_records runtime hrt st hf hres
        exact ih (pipelineStep runtime st) h1 h2
      · rw [if_neg hc]; exact ⟨hf, hres⟩

theorem pipeline_nofatal_full_aux (runtime : Config → RuntimeOutcome)
    (hrt : ∀ cfg, ∃ t st, runtime cfg = RuntimeOutcome.result t st) :
    ∀ (fuel : Nat) (cfgs : List Config) (i : Nat) (res lb : List ExecResult),
      cfgs.length - i ≤ fuel →
      (runPipeline runtime fuel
          ⟨StrategyState.full ⟨cfgs, i⟩, lb, res, false⟩).strat.hasNext = false ∧
      (runPipeline runtime fuel
          ⟨StrategyState.full ⟨cfgs, i⟩, lb, res, false⟩).results.length =
        res.length + (cfgs.length - i) := by
  intro fuel
  induction fuel with
  | zero =>
      intro cfgs i res lb hle
      have hge : cfgs.length ≤ i := by omega
      rw [runPipeline]
      refine ⟨?_, ?_⟩
      · rw [StrategyState.hasNext, FullSearch.hasNext]
        simp [Nat.not_lt.mpr hge]
      · show res.length = res.length + (cfgs.length - i)
        omega
  | succ fuel ih =>
      intro cfgs i res lb hle
      by_cases hi : i < cfgs.length
      · have hhn : (StrategyState.full ⟨cfgs, i⟩).hasNext = true := by
          rw [StrategyState.hasNext, FullSearch.hasNext]
          simp [hi]
        rw [runPipeline, if_pos ⟨hhn, rfl⟩]
        obtain ⟨t, stt, ht⟩ := hrt cfgs[i]
        have hget : cfgs[i]? = some cfgs[i] := List.getElem?_eq_getElem hi
        have hstep : pipelineStep runtime
            ⟨StrategyState.full ⟨cfgs, i⟩, lb, res, false⟩ =
            ⟨StrategyState.full ⟨cfgs, i + 1⟩,
              (if stt = Status.valid then
                insertLeaderboard ⟨cfgs[i], t, stt⟩ lb
              else lb),
              res ++ [⟨cfgs[i], t, stt⟩], false⟩ := by
          rw [pipelineStep]
          rw [if_neg (by simp)]
          rw [if_pos hhn]
          have hnx : (StrategyState.full (⟨cfgs, i⟩ : FullSearch)).next =
              (some cfgs[i], StrategyState.full ⟨cfgs, i + 1⟩) := by
            rw [StrategyState.next, FullSearch.next, hget]
          rw [hnx, proposeStep, ht, applyOutcome]
          rfl
        rw [hstep]
        obtain ⟨h1, h2⟩ :=
          ih cfgs (i + 1) (res ++ [⟨cfgs[i], t, stt⟩]) _ (by omega)
        refine ⟨h1, ?_⟩
        rw [h2]
        simp only [List.length_append, List.length_cons, List.length_nil]
        omega
      · have hhn : (StrategyState.full ⟨cfgs, i⟩).hasNext = false := by
          rw [StrategyState.hasNext, FullSearch.hasNext]
          simp [Nat.not_lt.mp hi, Nat.le_of_not_lt hi]
        rw [runPipeline, if_neg (by rw [hhn]; simp)]
        refine ⟨hhn, ?_⟩
        show res.length = res.length + (cfgs.length - i)
        omega

/-- Claim C3: for every pipeline run whose Kernel Runtime reports
per-configuration outcomes — compile, launch or correctness failures, or
valid results, in any mixture — every recorded Execution Result carries
exactly the status (and elapsed time) the runtime reported for its
configuration, and the session never aborts (the fatal flag stays
clear); a Full Search run under any such runtime processes every
configuration, so the loop does not stop before the strategy's
has_next() becomes false; in particular, under a runtime returning
CompileFailed for every configuration, the run ends with an empty
Leaderboard. -/
theorem pipeline_tolerates_failures :
    (∀ runtime : Config → RuntimeOutcome,
        (∀ cfg, ∃ t st, runtime cfg = RuntimeOutcome.result t st) →
        ∀ (fuel : Nat) (s0 : StrategyState),
          (runPipeline runtime fuel (initPipeline s0)).fatal = false ∧
          ∀ r ∈ (runPipeline runtime fuel (initPipeline s0)).results,
            runtime r.config = RuntimeOutcome.result r.elapsed_ms r.status) ∧
    (∀ runtime : Config → RuntimeOutcome,
        (∀ cfg, ∃ t st, runtime cfg = RuntimeOutcome.result t st) →
        ∀ cfgs : List Config,
          (runPipeline runtime cfgs.length
              (initPipeline (StrategyState.full
                (FullSearch.init cfgs)))).strat.hasNext = false ∧
          (runPipeline runtime cfgs.length
              (initPipeline (StrategyState.full
                (FullSearch.init cfgs)))).results.length = cfgs.length) ∧
    (∀ runtime : Config → RuntimeOutcome,
        (∀ cfg, ∃ t, runtime cfg = RuntimeOutcome.result t Status.compileFailed) →
        ∀ cfgs : List Config,
          (runPipeline runtime cfgs.length
              (initPipeline (StrategyState.full
                (FullSearch.init cfgs)))).leaderboard = []) := by
  refine ⟨?_, ?_, ?_⟩
  · intro runtime hrt fuel s0
    exact runPipeline_records runtime hrt fuel (initPipeline s0) rfl
      (fun r h => absurd h (List.not_mem_nil r))
  · intro runtime hrt cfgs
    have hini : initPipeline (StrategyState.full (FullSearch.init cfgs)) =
        (⟨StrategyState.full ⟨cfgs, 0⟩, [], [], false⟩ : PipelineState) := rfl
    rw [hini]
    obtain ⟨h1, h2⟩ :=
      pipeline_nofatal_full_aux runtime hrt cfgs.length cfgs 0 [] [] (by omega)
    exact ⟨h1, by rw [h2]; simp⟩
  · intro runtime hrt cfgs
    have hini : initPipeline (StrategyState.full (FullSearch.init cfgs)) =
        (⟨StrategyState.full ⟨cfgs, 0⟩, [], [], false⟩ : PipelineState) := rfl
    rw [hini]
    exact (pipeline_cf_aux runtime hrt cfgs.length cfgs 0 [] (by omega)).1

/-- Witness for C3: under the mixed launch/correctness-failure runtime a
two-configuration Full Search run ends without a fatal error and with
has_next() false (both configurations processed); under the
always-CompileFailed stub the Leaderboard ends empty. -/
theorem pipeline_tolerates_failures_witness :
    (runPipeline mixedRuntime 2
        (initPipeline (StrategyState.full
          (FullSearch.init [[("A", 2)], [("A", 4)]])))).fatal = false ∧
    (runPipeline mixedRuntime ([[("A", 2)], [("A", 4)]] : List Config).length
        (initPipeline (StrategyState.full
          (FullSearch.init [[("A", 2)], [("A", 4)]])))).strat.hasNext = false ∧
    (runPipeline (fun _ => RuntimeOutcome.result 1 Status.compileFailed)
        ([[("A", 2)], [("A", 4)]] : List Config).length
        (initPipeline (StrategyState.full
          (FullSearch.init [[("A", 2)], [("A", 4)]])))).leaderboard = [] :=
  ⟨(pipeline_tolerates_failures.1 mixedRuntime
      (fun cfg => by
        by_cases h : lookupVal cfg "A" = 2
        · exact ⟨1, Status.launchFailed, by simp [mixedRuntime, h]⟩
        · exact ⟨2, Status.correctnessFailed, by simp [mixedRuntime, h]⟩)
      2 (StrategyState.full (FullSearch.init [[("A", 2)], [("A", 4)]]))).1,
   (pipeline_tolerates_failures.2.1 mixedRuntime
      (fun cfg => by
        by_cases h : lookupVal cfg "A" = 2
        · exact ⟨1, Status.launchFailed, by simp [mixedRuntime, h]⟩
        · exact ⟨2, Status.correctnessFailed, by simp [mixedRuntime, h]⟩)
      [[("A", 2)], [("A", 4)]]).1,
   pipeline_tolerates_failures.2.2
      (fun _ => RuntimeOutcome.result 1 Status.compileFailed)
      (fun _ => ⟨1, rfl⟩) [[("A", 2)], [("A", 4)]]⟩

end CLTune
